import Mathlib

/-!
Verification of the CipherMount repository (an encrypted FUSE filesystem).

The development shallowly embeds the two Rust modules the claims are about:

* `src/crypto/mod.rs` — the envelope codec.  `encrypt` returns
  `nonce ++ ciphertext ++ tag`; `decrypt` rejects blobs shorter than
  `HEADER_LEN + 16 = 28` bytes, splits off the 12-byte nonce and opens the
  rest.  The AES-256-GCM primitive itself lives in the external `ring`
  crate, not in this repository; it is modelled here as an idealized AEAD
  with the same shape: a keyed CTR keystream XORed over the plaintext plus
  a 16-byte tag recomputed and compared on open.  The nonce, sampled from
  the system RNG in the Rust code, is an explicit parameter of `encrypt`.

* `src/fuse/mod.rs` — the filesystem handler (`CipherFS`).  Its state is
  the inode registry (a map `ino → path` plus a monotone counter) together
  with the backing directory, modelled as association lists.  Backing
  files whose `fs::read` fails for environmental reasons are modelled by
  the `FileData.bad` variant (the bytes are on disk, `stat` sees them, but
  reading errors), and paths on which `fs::write` fails by the `failWrite`
  component of the state.  Bytes are natural numbers.
-/

/-- One byte of the idealized CTR keystream derived from key and nonce
    (stands in for the AES-CTR keystream inside ring's AES-256-GCM). -/
def ksByte (key nonce : List Nat) (i : Nat) : Nat :=
  (key.sum * 7 + nonce.sum * 13 + i * 31 + 5) % 256

/-- CTR-mode transform: XOR the message with the keystream.  Applying it
    twice with the same key and nonce gives back the message. -/
def ctr (key nonce msg : List Nat) : List Nat :=
  List.zipWith (· ^^^ ·) msg ((List.range msg.length).map (ksByte key nonce))

/-- The 16-byte authentication tag over a ciphertext (stands in for the
    GCM tag; it is recomputed and compared on open). -/
def tagBytes (key nonce ct : List Nat) : List Nat :=
  (List.range 16).map
    (fun i => (key.sum * 3 + nonce.sum * 5
               + ct.foldl (fun a b => (a * 31 + b) % 65536) 7 + i * 11) % 256)

/-- ring's `seal_in_place_append_tag`: ciphertext with the tag appended. -/
def sealAEAD (key nonce pt : List Nat) : List Nat :=
  ctr key nonce pt ++ tagBytes key nonce (ctr key nonce pt)

/-- ring's `open_in_place`: split off the 16-byte tag, recompute and
    compare it, and decrypt on success. -/
def openAEAD (key nonce ctAndTag : List Nat) : Option (List Nat) :=
  if ctAndTag.length < 16 then none
  else
    let ct := ctAndTag.take (ctAndTag.length - 16)
    let tg := ctAndTag.drop (ctAndTag.length - 16)
    if tg = tagBytes key nonce ct then some (ctr key nonce ct) else none

/-- `HEADER_LEN` from `crypto/mod.rs`: the 12-byte nonce prefix. -/
def HEADER_LEN : Nat := 12

/-- The two error kinds of the envelope codec. -/
inductive CryptoErr
  | tooShort
  | authFailed
  deriving DecidableEq, Repr

/-- `Result<Vec<u8>>` of the codec. -/
inductive CResult
  | ok (val : List Nat)
  | err (e : CryptoErr)
  deriving DecidableEq, Repr

/-- `crypto::encrypt` from `crypto/mod.rs`: returns
    `nonce ++ ciphertext ++ tag`.  The freshly sampled RNG nonce is the
    explicit `nonce` argument. -/
def encrypt (key nonce plaintext : List Nat) : List Nat :=
  nonce ++ sealAEAD key nonce plaintext

/-- `crypto::decrypt` from `crypto/mod.rs`: reject blobs shorter than
    `HEADER_LEN + 16`, split at `HEADER_LEN`, open the remainder. -/
def decrypt (key data : List Nat) : CResult :=
  if data.length < HEADER_LEN + 16 then .err .tooShort
  else
    match openAEAD key (data.take HEADER_LEN) (data.drop HEADER_LEN) with
    | some pt => .ok pt
    | none => .err .authFailed

theorem ctr_length (key nonce msg : List Nat) : (ctr key nonce msg).length = msg.length := by
  simp [ctr]

theorem ctr_ctr (key nonce msg : List Nat) : ctr key nonce (ctr key nonce msg) = msg := by
  have h : ∀ (m ks : List Nat),
      List.zipWith (· ^^^ ·) (List.zipWith (· ^^^ ·) m ks) ks = m.take ks.length := by
    intro m
    induction m with
    | nil => intro ks; simp
    | cons a m ih =>
      intro ks
      cases ks with
      | nil => simp
      | cons k ks =>
        simp only [List.zipWith, List.take, ih]
        rw [Nat.xor_assoc, Nat.xor_self, Nat.xor_zero]
  simp only [ctr, List.length_zipWith, List.length_map, List.length_range,
    Nat.min_self, h, List.take_length]

theorem tagBytes_length (key nonce ct : List Nat) : (tagBytes key nonce ct).length = 16 := by
  simp [tagBytes]

theorem sealAEAD_length (key nonce pt : List Nat) :
    (sealAEAD key nonce pt).length = pt.length + 16 := by
  simp [sealAEAD, ctr_length, tagBytes_length]

theorem openAEAD_sealAEAD (key nonce pt : List Nat) :
    openAEAD key nonce (sealAEAD key nonce pt) = some pt := by
  have hlen : (sealAEAD key nonce pt).length = pt.length + 16 := sealAEAD_length key nonce pt
  have hctlen : (ctr key nonce pt).length = pt.length := ctr_length key nonce pt
  unfold openAEAD
  rw [hlen]
  rw [if_neg (by omega)]
  have hsub : pt.length + 16 - 16 = (ctr key nonce pt).length := by omega
  simp only [sealAEAD, hsub, List.take_left, List.drop_left]
  simp [ctr_ctr]

theorem encrypt_length (key nonce pt : List Nat) (hn : nonce.length = 12) :
    (encrypt key nonce pt).length = 12 + pt.length + 16 := by
  simp [encrypt, sealAEAD_length, hn]; omega

/-- C1: For every 32-byte key `K` and every plaintext `P`, decrypting the
    blob produced by `encrypt(K, P)` (with its freshly sampled 12-byte
    nonce) under the same key succeeds and returns exactly `P`: decrypt is
    the left inverse of encrypt under the same key. -/
theorem decrypt_encrypt (key nonce pt : List Nat)
    (hk : key.length = 32) (hn : nonce.length = 12) :
    decrypt key (encrypt key nonce pt) = .ok pt := by
  have hlen : (encrypt key nonce pt).length = 12 + pt.length + 16 :=
    encrypt_length key nonce pt hn
  unfold decrypt
  rw [hlen, if_neg (by simp [HEADER_LEN])]
  have htake : (encrypt key nonce pt).take HEADER_LEN = nonce := by
    unfold encrypt HEADER_LEN
    exact List.take_left' hn
  have hdrop : (encrypt key nonce pt).drop HEADER_LEN = sealAEAD key nonce pt := by
    unfold encrypt HEADER_LEN
    exact List.drop_left' hn
  rw [htake, hdrop, openAEAD_sealAEAD]

theorem decrypt_encrypt_witness :
    decrypt (List.replicate 32 66) (encrypt (List.replicate 32 66) (List.replicate 12 9) [72, 105]) = .ok [72, 105] :=
  decrypt_encrypt (List.replicate 32 66) (List.replicate 12 9) [72, 105] (by simp) (by simp)

/-- C9: For every key `K` and every blob `B` with fewer than 28 bytes,
    `decrypt(K, B)` fails with the too-short error, while a blob of
    exactly 28 bytes passes this length check (its decryption either
    succeeds or fails with the authentication error, never `tooShort`). -/
theorem decrypt_short (key b : List Nat) :
    (b.length < 28 → decrypt key b = .err .tooShort)
    ∧ (b.length = 28 → decrypt key b ≠ .err .tooShort) := by
  constructor
  · intro h
    unfold decrypt
    rw [if_pos (by simp [HEADER_LEN]; omega)]
  · intro h
    unfold decrypt
    rw [if_neg (by simp [HEADER_LEN]; omega)]
    cases openAEAD key (b.take HEADER_LEN) (b.drop HEADER_LEN) with
    | some pt => simp
    | none => simp

theorem decrypt_short_witness :
    decrypt (List.replicate 32 16) (List.replicate 10 0) = .err .tooShort
    ∧ decrypt (List.replicate 32 66) (encrypt (List.replicate 32 66) (List.replicate 12 3) []) ≠ .err .tooShort := by
  refine ⟨(decrypt_short (List.replicate 32 16) (List.replicate 10 0)).1 (by simp),
          (decrypt_short (List.replicate 32 66) (encrypt (List.replicate 32 66) (List.replicate 12 3) [])).2 ?_⟩
  rw [encrypt_length _ _ _ (by simp)]
  simp

/-! ## The filesystem handler (`src/fuse/mod.rs`) -/

/-- A backing path, as the list of its components below the backing root
    (Rust `PathBuf`). -/
abbrev FPath := List String

/-- A regular file in the backing directory.  `ok` files read normally;
    `bad` files exist on disk (`stat` and `path.exists()` see them) but
    `fs::read` fails on them for environmental reasons (permissions, I/O
    error).  Both carry the on-disk bytes, so `stat` can report a length. -/
inductive FileData
  | ok (bytes : List Nat)
  | bad (bytes : List Nat)
  deriving DecidableEq, Repr

/-- The on-disk bytes of a file (what `meta.len()` measures). -/
def FileData.bytes : FileData → List Nat
  | .ok b => b
  | .bad b => b

/-- The state a `CipherFS` instance operates on: the immutable key, the
    inode registry with its monotone counter, and the backing directory —
    regular files, directories, and the set of paths on which the backing
    `fs::write` fails (an environment fact, not program state). -/
structure FSState where
  key : List Nat
  inodes : List (Nat × FPath)
  nextIno : Nat
  disk : List (FPath × FileData)
  dirs : List FPath
  failWrite : List FPath
  deriving DecidableEq, Repr

/-- Registry lookup by inode (`HashMap::get`). -/
def findByIno : List (Nat × FPath) → Nat → Option FPath
  | [], _ => none
  | (i, q) :: rest, j => if i = j then some q else findByIno rest j

/-- Registry scan by path (the `for (ino, p) in map.iter()` loop in
    `CipherFS::register`). -/
def findByPath : List (Nat × FPath) → FPath → Option Nat
  | [], _ => none
  | (i, q) :: rest, p => if q = p then some i else findByPath rest p

/-- Backing-directory lookup of a regular file. -/
def diskGet : List (FPath × FileData) → FPath → Option FileData
  | [], _ => none
  | (q, fd) :: rest, p => if q = p then some fd else diskGet rest p

/-- Whole-file overwrite (or creation) of a regular file (`fs::write`,
    `File::create`). -/
def diskSet : List (FPath × FileData) → FPath → FileData → List (FPath × FileData)
  | [], p, fd => [(p, fd)]
  | (q, g) :: rest, p, fd => if q = p then (p, fd) :: rest else (q, g) :: diskSet rest p fd

/-- Removal of a regular file (`fs::remove_file`). -/
def diskRemove : List (FPath × FileData) → FPath → List (FPath × FileData)
  | [], _ => []
  | (q, g) :: rest, p => if q = p then rest else (q, g) :: diskRemove rest p

/-- `CipherFS::path_for`. -/
def pathFor (st : FSState) (ino : Nat) : Option FPath :=
  findByIno st.inodes ino

/-- `CipherFS::register`: return the existing inode for `p`, or bind `p`
    to the next counter value. -/
def register (st : FSState) (p : FPath) : Nat × FSState :=
  match findByPath st.inodes p with
  | some i => (i, st)
  | none =>
    (st.nextIno,
     { st with inodes := st.inodes ++ [(st.nextIno, p)], nextIno := st.nextIno + 1 })

/-- `fs::read`: the file's bytes, failing when the path is absent, is a
    directory, or is unreadable (`FileData.bad`). -/
def fsRead (st : FSState) (p : FPath) : Option (List Nat) :=
  match diskGet st.disk p with
  | some (.ok b) => some b
  | some (.bad _) => none
  | none => none

/-- Rust `path.exists()`. -/
def pathExists (st : FSState) (p : FPath) : Bool :=
  (diskGet st.disk p).isSome || decide (p ∈ st.dirs)

/-- The slice of `fs::Metadata` the handler consumes. -/
inductive Meta
  | dirMeta
  | fileMeta (size : Nat)
  deriving DecidableEq, Repr

/-- `fs::metadata` (backing stat): fails on absent paths; for regular
    files the size is the on-disk length.  (Directory sizes are
    environment-specific and unused by every claim; they stat as 0.) -/
def stat (st : FSState) (p : FPath) : Option Meta :=
  if p ∈ st.dirs then some .dirMeta
  else (diskGet st.disk p).map (fun fd => .fileMeta fd.bytes.length)

/-- File kinds distinguished by `meta_to_attr`. -/
inductive FKind
  | directory
  | regularFile
  deriving DecidableEq, Repr

/-- The fields of `fuser::FileAttr` the claims are about; the remaining
    fields (times, permissions, owner, ...) are copied from the backing
    metadata and carry no logic. -/
structure FileAttr where
  ino : Nat
  size : Nat
  kind : FKind
  deriving DecidableEq, Repr

/-- `CipherFS::meta_to_attr`: `size` is `meta.len()` of the backing file. -/
def metaToAttr (ino : Nat) (m : Meta) : FileAttr :=
  match m with
  | .dirMeta => { ino, size := 0, kind := .directory }
  | .fileMeta n => { ino, size := n, kind := .regularFile }

/-- The errno values the handler replies with. -/
inductive Errno
  | enoent
  | eio
  | enotdir
  deriving DecidableEq, Repr

inductive AttrReply
  | attr (a : FileAttr)
  | error (e : Errno)
  deriving DecidableEq, Repr

inductive OpenReply
  | opened
  | error (e : Errno)
  deriving DecidableEq, Repr

inductive DataReply
  | data (bytes : List Nat)
  | error (e : Errno)
  deriving DecidableEq, Repr

inductive WriteReply
  | written (n : Nat)
  | error (e : Errno)
  deriving DecidableEq, Repr

inductive CreateReply
  | created (a : FileAttr)
  | error (e : Errno)
  deriving DecidableEq, Repr

inductive EmptyReply
  | ok
  | error (e : Errno)
  deriving DecidableEq, Repr

/-- `CipherFS::getattr`: resolve the inode, stat the backing path,
    translate the metadata; `ENOENT` when either step fails. -/
def fuseGetattr (st : FSState) (ino : Nat) : AttrReply :=
  match pathFor st ino with
  | none => .error .enoent
  | some path =>
    match stat st path with
    | some m => .attr (metaToAttr ino m)
    | none => .error .enoent

/-- `CipherFS::open`: succeeds with handle 0 iff the inode is registered
    (no backing stat is performed). -/
def fuseOpen (st : FSState) (ino : Nat) : OpenReply :=
  if (pathFor st ino).isSome then .opened else .error .enoent

/-- `CipherFS::read`: load the whole backing file, treat loads shorter
    than 28 bytes as blank, decrypt, clip to `[offset, offset + size)`. -/
def fuseRead (st : FSState) (ino offset size : Nat) : DataReply :=
  match pathFor st ino with
  | none => .error .enoent
  | some path =>
    match fsRead st path with
    | none => .error .eio
    | some raw =>
      if raw.length < HEADER_LEN + 16 then .data []
      else
        match decrypt st.key raw with
        | .ok plaintext =>
          let start := offset
          let stop := min (start + size) plaintext.length
          if plaintext.length ≤ start then .data []
          else .data ((plaintext.drop start).take (stop - start))
        | .err _ => .error .eio

/-- The current plaintext `write` starts from (`fuse/mod.rs`, the
    `path.exists()` block): empty when the path does not exist, when
    reading it fails (`unwrap_or_default`), when it holds fewer than 28
    bytes, or when decryption fails (`unwrap_or_default`). -/
def currentPlaintext (st : FSState) (path : FPath) : List Nat :=
  if pathExists st path then
    let raw := (fsRead st path).getD []
    if HEADER_LEN + 16 ≤ raw.length then
      match decrypt st.key raw with
      | .ok p => p
      | .err _ => []
    else []
  else []

/-- The resize-and-copy step of `write`: zero-extend to `offset + |data|`
    when shorter (`Vec::resize`), then overwrite that byte range
    (`copy_from_slice`). -/
def writePlaintext (P : List Nat) (offset : Nat) (data : List Nat) : List Nat :=
  let stop := offset + data.length
  let p1 := if P.length < stop then P ++ List.replicate (stop - P.length) 0 else P
  p1.take offset ++ data ++ p1.drop stop

/-- `CipherFS::write`: read-modify-encrypt-overwrite.  The fresh RNG
    nonce is the `nonce` argument; the backing `fs::write` fails exactly
    on the paths in `failWrite`. -/
def fuseWrite (st : FSState) (nonce : List Nat) (ino offset : Nat) (data : List Nat) :
    WriteReply × FSState :=
  match pathFor st ino with
  | none => (.error .enoent, st)
  | some path =>
    let plaintext := writePlaintext (currentPlaintext st path) offset data
    let blob := encrypt st.key nonce plaintext
    if path ∈ st.failWrite then (.error .eio, st)
    else (.written data.length, { st with disk := diskSet st.disk path (.ok blob) })

/-- `CipherFS::create`: `File::create` truncates an existing regular file
    or creates a fresh empty one, then the child is registered and its
    fresh metadata returned; it fails (`EIO`) unless the parent path is a
    backing directory and the target is not itself a directory. -/
def fuseCreate (st : FSState) (parent : Nat) (name : String) : CreateReply × FSState :=
  match pathFor st parent with
  | none => (.error .enoent, st)
  | some pp =>
    let child := pp ++ [name]
    if pp ∈ st.dirs ∧ child ∉ st.dirs then
      let st1 : FSState := { st with disk := diskSet st.disk child (.ok []) }
      let r := register st1 child
      (.created (metaToAttr r.1 ((stat st1 child).getD (.fileMeta 0))), r.2)
    else (.error .eio, st)

/-- `CipherFS::unlink`: `fs::remove_file` succeeds only on an existing
    regular file; the registry is never touched. -/
def fuseUnlink (st : FSState) (parent : Nat) (name : String) : EmptyReply × FSState :=
  match pathFor st parent with
  | none => (.error .enoent, st)
  | some pp =>
    let child := pp ++ [name]
    if (diskGet st.disk child).isSome = true ∧ child ∉ st.dirs then
      (.ok, { st with disk := diskRemove st.disk child })
    else (.error .eio, st)

/-! ## Helper lemmas about the state components -/

theorem diskGet_diskSet_self (d : List (FPath × FileData)) (p : FPath) (fd : FileData) :
    diskGet (diskSet d p fd) p = some fd := by
  induction d with
  | nil => simp [diskSet, diskGet]
  | cons e rest ih =>
    by_cases h : e.1 = p
    · simp [diskSet, diskGet, h]
    · simp [diskSet, diskGet, h, ih]

theorem register_disk (st : FSState) (p : FPath) : (register st p).2.disk = st.disk := by
  unfold register
  cases findByPath st.inodes p <;> rfl

theorem register_dirs (st : FSState) (p : FPath) : (register st p).2.dirs = st.dirs := by
  unfold register
  cases findByPath st.inodes p <;> rfl

theorem writePlaintext_length (P : List Nat) (offset : Nat) (data : List Nat) :
    (writePlaintext P offset data).length = max P.length (offset + data.length) := by
  unfold writePlaintext
  by_cases h : P.length < offset + data.length
  · simp [h, List.length_append, List.length_take, List.length_drop, List.length_replicate]
    omega
  · simp [h, List.length_append, List.length_take, List.length_drop]
    omega

/-- Modelled from the spec's words, for comparison against the handler's
    resize-and-copy: the plaintext zero-extended to length
    `max |P| (offset + |data|)` with the byte range
    `[offset, offset + |data|)` replaced by `data`. -/
def specNewPlaintext (P : List Nat) (offset : Nat) (data : List Nat) : List Nat :=
  let Pz := P ++ List.replicate (max P.length (offset + data.length) - P.length) 0
  Pz.take offset ++ data ++ Pz.drop (offset + data.length)

theorem writePlaintext_eq_spec (P : List Nat) (offset : Nat) (data : List Nat) :
    writePlaintext P offset data = specNewPlaintext P offset data := by
  unfold writePlaintext specNewPlaintext
  by_cases h : P.length < offset + data.length
  · have hmax : max P.length (offset + data.length) = offset + data.length := by omega
    simp [h, hmax]
  · have hmax : max P.length (offset + data.length) = P.length := by omega
    simp [h, hmax]

/-! ## C2: write splices the new data into the current plaintext -/

/-- C2: For every known inode with current plaintext `P` (empty when the
    backing file is absent, unreadable, shorter than 28 bytes, or fails
    to decrypt), `write(ino, offset, data)` replies `written = |data|`
    and overwrites the backing file with the encryption of `P`
    zero-extended to length `max |P| (offset + |data|)` with bytes
    `[offset, offset + |data|)` replaced by `data`. -/
theorem write_splices (st : FSState) (nonce : List Nat) (ino offset : Nat)
    (data : List Nat) (path : FPath)
    (hp : pathFor st ino = some path) (hw : path ∉ st.failWrite) :
    (fuseWrite st nonce ino offset data).1 = .written data.length
    ∧ diskGet (fuseWrite st nonce ino offset data).2.disk path
        = some (.ok (encrypt st.key nonce
            (specNewPlaintext (currentPlaintext st path) offset data)))
    ∧ (specNewPlaintext (currentPlaintext st path) offset data).length
        = max (currentPlaintext st path).length (offset + data.length) := by
  unfold fuseWrite
  simp only [hp]
  rw [if_neg hw]
  refine ⟨rfl, ?_, ?_⟩
  · rw [← writePlaintext_eq_spec]
    exact diskGet_diskSet_self _ _ _
  · rw [← writePlaintext_eq_spec]
    exact writePlaintext_length _ _ _

/-- A backing state holding one freshly created (0-byte) file `"f"`. -/
def freshFileState : FSState :=
  { key := List.replicate 32 66, inodes := [(1, []), (2, ["f"])], nextIno := 3,
    disk := [(["f"], FileData.ok [])], dirs := [[]], failWrite := [] }

theorem write_splices_witness :
    (fuseWrite freshFileState (List.replicate 12 7) 2 5 [120, 121, 122]).1 = .written 3
    ∧ fuseRead (fuseWrite freshFileState (List.replicate 12 7) 2 5 [120, 121, 122]).2 2 0 8
        = .data [0, 0, 0, 0, 0, 120, 121, 122] := by
  refine ⟨?_, by decide⟩
  have h := (write_splices freshFileState (List.replicate 12 7) 2 5 [120, 121, 122] ["f"]
    (by decide) (by decide)).1
  simpa using h

/-! ## C3: read clips the decrypted plaintext -/

/-- C3: For every known inode, `read(ino, offset, size)` replies with an
    empty buffer when the backing file loads as fewer than 28 bytes;
    otherwise, when decryption succeeds yielding plaintext `P`, it
    replies empty if `offset ≥ |P|` and with the slice
    `P[offset .. min(offset + size, |P|))` otherwise; and it replies
    `EIO` when decryption fails. -/
theorem read_clips (st : FSState) (ino offset size : Nat) (path : FPath) (raw : List Nat)
    (hp : pathFor st ino = some path) (hr : fsRead st path = some raw) :
    fuseRead st ino offset size =
      if raw.length < 28 then .data []
      else
        match decrypt st.key raw with
        | .ok P =>
          if offset ≥ P.length then .data []
          else .data ((P.take (min (offset + size) P.length)).drop offset)
        | .err _ => .error .eio := by
  unfold fuseRead
  simp only [hp, hr]
  have h28 : HEADER_LEN + 16 = 28 := by simp [HEADER_LEN]
  rw [h28]
  by_cases hlen : raw.length < 28
  · simp [hlen]
  · simp only [if_neg hlen]
    cases hdec : decrypt st.key raw with
    | ok P =>
      by_cases hoff : P.length ≤ offset
      · simp [hoff, ge_iff_le]
      · simp only [ge_iff_le, if_neg hoff]
        rw [List.drop_take]
    | err e => rfl

/-! ## C4: the inode registry is stable and injective in both directions -/

theorem findByPath_none_not_mem {l : List (Nat × FPath)} {p : FPath}
    (h : findByPath l p = none) : ∀ i, (i, p) ∉ l := by
  induction l with
  | nil => simp
  | cons e rest ih =>
    intro i hm
    unfold findByPath at h
    by_cases he : e.2 = p
    · obtain ⟨i0, q0⟩ := e
      simp only at he
      subst he
      simp at h
    · obtain ⟨i0, q0⟩ := e
      simp only at he
      rw [if_neg he] at h
      rcases List.mem_cons.mp hm with hh | hh
      · exact he (congrArg Prod.snd hh).symm
      · exact ih h i hh

theorem findByPath_some_mem {l : List (Nat × FPath)} {p : FPath} {i : Nat}
    (h : findByPath l p = some i) : (i, p) ∈ l := by
  induction l with
  | nil => simp [findByPath] at h
  | cons e rest ih =>
    unfold findByPath at h
    by_cases he : e.2 = p
    · obtain ⟨i0, q0⟩ := e
      simp only at he
      subst he
      rw [if_pos rfl] at h
      cases h
      exact List.mem_cons_self _ _
    · obtain ⟨i0, q0⟩ := e
      simp only at he
      rw [if_neg he] at h
      exact List.mem_cons_of_mem _ (ih h)

theorem findByIno_of_mem {l : List (Nat × FPath)} {i : Nat} {p : FPath}
    (hm : (i, p) ∈ l) (huniq : ∀ e ∈ l, e.1 = i → e.2 = p) :
    findByIno l i = some p := by
  induction l with
  | nil => simp at hm
  | cons e rest ih =>
    obtain ⟨i0, q0⟩ := e
    unfold findByIno
    by_cases he : i0 = i
    · rw [if_pos he]
      have := huniq (i0, q0) (List.mem_cons_self _ _) he
      simp only at this
      rw [this]
    · rw [if_neg he]
      rcases List.mem_cons.mp hm with hh | hh
      · exact absurd (congrArg Prod.fst hh).symm he
      · exact ih hh (fun e hme => huniq e (List.mem_cons_of_mem _ hme))

theorem findByPath_append_fresh {l : List (Nat × FPath)} {p : FPath} {n : Nat}
    (h : findByPath l p = none) : findByPath (l ++ [(n, p)]) p = some n := by
  induction l with
  | nil => simp [findByPath]
  | cons e rest ih =>
    obtain ⟨i0, q0⟩ := e
    simp only [findByPath] at h
    simp only [List.cons_append, findByPath]
    by_cases he : q0 = p
    · rw [if_pos he] at h
      exact Option.noConfusion h
    · rw [if_neg he] at h ⊢
      exact ih h

theorem findByIno_append_fresh {l : List (Nat × FPath)} {p : FPath} {n : Nat}
    (h : ∀ e ∈ l, e.1 ≠ n) : findByIno (l ++ [(n, p)]) n = some p := by
  induction l with
  | nil => simp [findByIno]
  | cons e rest ih =>
    obtain ⟨i0, q0⟩ := e
    simp only [List.cons_append, findByIno]
    rw [if_neg (h (i0, q0) (List.mem_cons_self _ _))]
    exact ih (fun e2 hme => h e2 (List.mem_cons_of_mem _ hme))

/-- The registry invariant maintained for the process lifetime: every
    recorded inode is below the allocation counter, and the mapping is
    injective in both directions. -/
def RegWF (st : FSState) : Prop :=
  ∀ e ∈ st.inodes, e.1 < st.nextIno ∧
    ∀ e2 ∈ st.inodes, (e.1 = e2.1 → e.2 = e2.2) ∧ (e.2 = e2.2 → e.1 = e2.1)

instance (st : FSState) : Decidable (RegWF st) := by
  unfold RegWF
  infer_instance

/-- C4: On a well-formed registry, `register` preserves well-formedness,
    never removes or reassigns an existing `(ino, path)` pair, returns
    the same inode on a repeated call with the same path, satisfies
    `path_for(register(p)) = p`, and hands distinct paths distinct
    inodes. -/
theorem register_stable (st : FSState) (p q : FPath) (h : RegWF st) :
    RegWF (register st p).2
    ∧ (∀ e ∈ st.inodes, e ∈ (register st p).2.inodes)
    ∧ (register (register st p).2 p).1 = (register st p).1
    ∧ pathFor (register st p).2 (register st p).1 = some p
    ∧ (p ≠ q → (register (register st p).2 q).1 ≠ (register st p).1) := by
  unfold register pathFor
  cases hfp : findByPath st.inodes p with
  | some i =>
    simp only
    have hmem : (i, p) ∈ st.inodes := findByPath_some_mem hfp
    refine ⟨h, fun e he => he, by rw [hfp], ?_, ?_⟩
    · exact findByIno_of_mem hmem
        (fun e he hei => ((h e he).2 (i, p) hmem).1 hei)
    · intro hpq
      cases hfq : findByPath st.inodes q with
      | some j =>
        simp only
        intro hij
        have hmq : (i, q) ∈ st.inodes := hij ▸ findByPath_some_mem hfq
        exact hpq (((h (i, p) hmem).2 (i, q) hmq).1 rfl)
      | none =>
        simp only
        intro hij
        have hlt : i < st.nextIno := (h _ hmem).1
        omega
  | none =>
    simp only
    have hfp2 : findByPath (st.inodes ++ [(st.nextIno, p)]) p = some st.nextIno :=
      findByPath_append_fresh hfp
    have hwf : RegWF { st with inodes := st.inodes ++ [(st.nextIno, p)],
                               nextIno := st.nextIno + 1 } := by
      intro e he
      obtain ⟨a, b⟩ := e
      simp only [List.mem_append, List.mem_singleton, Prod.mk.injEq] at he
      rcases he with hold | ⟨rfl, rfl⟩
      · refine ⟨Nat.lt_succ_of_lt (h _ hold).1, ?_⟩
        intro e2 he2
        obtain ⟨c, d⟩ := e2
        simp only [List.mem_append, List.mem_singleton, Prod.mk.injEq] at he2
        rcases he2 with hold2 | ⟨rfl, rfl⟩
        · exact (h _ hold).2 _ hold2
        · constructor
          · intro he1
            have hlt : a < st.nextIno := (h _ hold).1
            simp only at he1
            omega
          · intro he2eq
            simp only at he2eq
            subst he2eq
            exact absurd hold (findByPath_none_not_mem hfp a)
      · refine ⟨Nat.lt_succ_self _, ?_⟩
        intro e2 he2
        obtain ⟨c, d⟩ := e2
        simp only [List.mem_append, List.mem_singleton, Prod.mk.injEq] at he2
        rcases he2 with hold2 | ⟨rfl, rfl⟩
        · constructor
          · intro he1
            have hlt : c < st.nextIno := (h _ hold2).1
            simp only at he1
            omega
          · intro he2eq
            simp only at he2eq
            subst he2eq
            exact absurd hold2 (findByPath_none_not_mem hfp c)
        · exact ⟨fun _ => rfl, fun _ => rfl⟩
    refine ⟨hwf, fun e he => List.mem_append_left _ he, by rw [hfp2], ?_, ?_⟩
    · exact findByIno_append_fresh (fun e he => Nat.ne_of_lt (h e he).1)
    · intro hpq
      cases hfq : findByPath (st.inodes ++ [(st.nextIno, p)]) q with
      | some j =>
        simp only
        intro hij
        have hmq : (j, q) ∈ st.inodes ++ [(st.nextIno, p)] := findByPath_some_mem hfq
        rw [hij] at hmq
        rcases List.mem_append.mp hmq with hold | hnew
        · exact absurd (h _ hold).1 (lt_irrefl _)
        · have hqp : q = p := congrArg Prod.snd (List.mem_singleton.mp hnew)
          exact hpq hqp.symm
      | none =>
        simp only
        omega

/-- A one-entry registry over an empty backing tree. -/
def regState : FSState :=
  { key := List.replicate 32 66, inodes := [(1, [])], nextIno := 2,
    disk := [], dirs := [[]], failWrite := [] }

theorem register_stable_witness :
    RegWF regState
    ∧ (register (register regState ["a"]).2 ["a"]).1 = (register regState ["a"]).1
    ∧ pathFor (register regState ["a"]).2 (register regState ["a"]).1 = some ["a"]
    ∧ (register (register regState ["a"]).2 ["b"]).1 ≠ (register regState ["a"]).1 := by
  have h := register_stable regState ["a"] ["b"] (by decide)
  exact ⟨by decide, h.2.2.1, h.2.2.2.1, h.2.2.2.2 (by decide)⟩

/-! ## C5 (corrected): which write failures actually reply EIO -/

/-- A state whose backing file `"f"` exists (30 bytes on disk) but whose
    `fs::read` fails. -/
def unreadableState : FSState :=
  { key := List.replicate 32 66, inodes := [(1, []), (2, ["f"])], nextIno := 3,
    disk := [(["f"], FileData.bad (List.replicate 30 1))], dirs := [[]], failWrite := [] }

/-- A state whose backing file `"f"` reads fine but holds 30 bytes that
    fail to decrypt. -/
def undecryptableState : FSState :=
  { key := List.replicate 32 66, inodes := [(1, []), (2, ["f"])], nextIno := 3,
    disk := [(["f"], FileData.ok (List.replicate 30 0))], dirs := [[]], failWrite := [] }

/-- C5 counterexample: a failure to read the existing backing file — and
    likewise a decryption failure on it — does not make `write` reply
    `EIO`; the handler swallows both (`unwrap_or_default`) and replies
    `written = |data|`. -/
theorem write_eio_counterexample :
    fsRead unreadableState ["f"] = none
    ∧ pathExists unreadableState ["f"] = true
    ∧ (fuseWrite unreadableState (List.replicate 12 7) 2 0 [7, 8]).1 = .written 2
    ∧ (fuseWrite unreadableState (List.replicate 12 7) 2 0 [7, 8]).1 ≠ .error .eio
    ∧ decrypt undecryptableState.key (List.replicate 30 0) = .err .authFailed
    ∧ (fuseWrite undecryptableState (List.replicate 12 7) 2 0 [7, 8]).1 = .written 2 := by
  decide

/-- C5 (amended): for a known inode, `write` replies `EIO` exactly when
    the final backing `fs::write` fails (encryption, with its RNG nonce
    supplied, does not fail in the model); a failure to read the existing
    backing file is not an error — the current plaintext is then treated
    as empty — and whenever the backing write succeeds the reply is
    `written = |data|`. -/
theorem write_eio_amended (st : FSState) (nonce : List Nat) (ino offset : Nat)
    (data : List Nat) (path : FPath) (hp : pathFor st ino = some path) :
    ((fuseWrite st nonce ino offset data).1 = .error .eio ↔ path ∈ st.failWrite)
    ∧ (fsRead st path = none → currentPlaintext st path = [])
    ∧ (path ∉ st.failWrite →
        (fuseWrite st nonce ino offset data).1 = .written data.length) := by
  unfold fuseWrite
  simp only [hp]
  refine ⟨?_, ?_, ?_⟩
  · by_cases hw : path ∈ st.failWrite
    · simp [hw]
    · simp [hw]
  · intro hr
    unfold currentPlaintext
    rw [hr]
    by_cases hex : pathExists st path
    · simp [hex]
    · simp [hex]
  · intro hw
    rw [if_neg hw]

theorem write_eio_amended_witness :
    (fuseWrite unreadableState (List.replicate 12 7) 2 0 [7, 8]).1 = .written 2 :=
  (write_eio_amended unreadableState (List.replicate 12 7) 2 0 [7, 8] ["f"]
    (by decide)).2.2 (by decide)

/-! ## C6 (corrected): what stale registry entries actually reply -/

/-- A state whose inode 2 is still registered to `"g"` although the
    backing file has been removed. -/
def staleState : FSState :=
  { key := List.replicate 32 66, inodes := [(1, []), (2, ["g"])], nextIno := 3,
    disk := [], dirs := [[]], failWrite := [] }

/-- C6 counterexample: on a registered inode whose backing file is gone,
    `open` still succeeds (it consults only the registry), `read` replies
    `EIO` rather than `ENOENT`, and `write` re-creates the backing file
    and replies `written`; only `getattr` replies `ENOENT`. -/
theorem stale_enoent_counterexample :
    fuseOpen staleState 2 = .opened
    ∧ fuseOpen staleState 2 ≠ .error .enoent
    ∧ fuseRead staleState 2 0 4 = .error .eio
    ∧ fuseRead staleState 2 0 4 ≠ .error .enoent
    ∧ (fuseWrite staleState (List.replicate 12 7) 2 0 [1]).1 = .written 1
    ∧ (fuseWrite staleState (List.replicate 12 7) 2 0 [1]).1 ≠ .error .enoent := by
  decide

/-- C6 (amended): after `unlink` the registry entry remains; on an inode
    whose backing path is gone, `getattr` replies `ENOENT` (its stat
    fails), but `open` succeeds, `read` replies `EIO`, and `write`
    re-creates the backing file from an empty plaintext and replies
    `written = |data|`. -/
theorem stale_behavior (st : FSState) (parent : Nat) (name : String)
    (nonce data : List Nat) (ino offset size : Nat) (path : FPath)
    (hp : pathFor st ino = some path) (habs : diskGet st.disk path = none)
    (hnd : path ∉ st.dirs) (hw : path ∉ st.failWrite) :
    (fuseUnlink st parent name).2.inodes = st.inodes
    ∧ fuseGetattr st ino = .error .enoent
    ∧ fuseOpen st ino = .opened
    ∧ fuseRead st ino offset size = .error .eio
    ∧ (fuseWrite st nonce ino offset data).1 = .written data.length
    ∧ diskGet (fuseWrite st nonce ino offset data).2.disk path
        = some (.ok (encrypt st.key nonce (writePlaintext [] offset data))) := by
  have hcp : currentPlaintext st path = [] := by
    simp [currentPlaintext, pathExists, habs, hnd]
  refine ⟨?_, ?_, ?_, ?_, ?_, ?_⟩
  · unfold fuseUnlink
    cases pathFor st parent with
    | none => rfl
    | some pp =>
      dsimp only
      split
      · rfl
      · rfl
  · simp [fuseGetattr, stat, hp, hnd, habs]
  · simp [fuseOpen, hp]
  · simp [fuseRead, fsRead, hp, habs]
  · simp only [fuseWrite, hp]
    rw [if_neg hw]
  · simp only [fuseWrite, hp]
    rw [if_neg hw]
    simp only [hcp]
    exact diskGet_diskSet_self _ _ _

theorem stale_behavior_witness :
    fuseGetattr staleState 2 = .error .enoent
    ∧ fuseOpen staleState 2 = .opened
    ∧ (fuseWrite staleState (List.replicate 12 7) 2 0 [1]).1 = .written 1 := by
  have h := stale_behavior staleState 1 "g" (List.replicate 12 7) [1] 2 0 4 ["g"]
    (by decide) (by decide) (by decide) (by decide)
  exact ⟨h.2.1, h.2.2.1, h.2.2.2.2.1⟩

/-! ## C7: getattr reports the envelope length, not the plaintext length -/

/-- C7: For a known inode whose backing path exists as a regular file,
    `getattr` replies with `size` equal to the backing file's on-disk
    length; in particular, for an enveloped file this is the plaintext
    length plus 28 — never the plaintext length itself. -/
theorem getattr_size (st : FSState) (ino : Nat) (path : FPath) (fd : FileData)
    (hp : pathFor st ino = some path) (hnd : path ∉ st.dirs)
    (hf : diskGet st.disk path = some fd) :
    fuseGetattr st ino = .attr { ino := ino, size := fd.bytes.length, kind := .regularFile }
    ∧ (∀ nonce P, nonce.length = 12 → fd = .ok (encrypt st.key nonce P) →
        fd.bytes.length = P.length + 28 ∧ fd.bytes.length ≠ P.length) := by
  constructor
  · simp [fuseGetattr, stat, hp, hnd, hf, metaToAttr]
  · intro nonce P hn hfd
    subst hfd
    have hlen := encrypt_length st.key nonce P hn
    simp only [FileData.bytes]
    omega

/-- One enveloped backing file `"e"` holding the encryption of 3 bytes. -/
def envState : FSState :=
  { key := List.replicate 32 66, inodes := [(1, []), (2, ["e"])], nextIno := 3,
    disk := [(["e"],
      FileData.ok (encrypt (List.replicate 32 66) (List.replicate 12 7) [1, 2, 3]))],
    dirs := [[]], failWrite := [] }

theorem getattr_size_witness :
    fuseGetattr envState 2 = .attr { ino := 2, size := 31, kind := FKind.regularFile } := by
  have h := (getattr_size envState 2 ["e"]
    (FileData.ok (encrypt (List.replicate 32 66) (List.replicate 12 7) [1, 2, 3]))
    (by decide) (by decide) (by decide)).1
  rw [h]
  decide

theorem read_clips_witness :
    fuseRead envState 2 1 100 = .data [2, 3] := by
  have h := read_clips envState 2 1 100 ["e"]
    (encrypt (List.replicate 32 66) (List.replicate 12 7) [1, 2, 3])
    (by decide) (by decide)
  rw [h]
  decide

/-! ## C8: every envelope is 28 bytes longer than its plaintext -/

/-- C8: A successful `encrypt(K, P)` (12-byte nonce) returns a blob of
    length exactly `12 + |P| + 16`, and hence the backing file produced
    by every successful handler write is exactly 28 bytes longer than
    the plaintext it envelopes. -/
theorem blob_length (key nonce p : List Nat) (hn : nonce.length = 12) :
    (encrypt key nonce p).length = 12 + p.length + 16
    ∧ (∀ st ino offset data path, st.key = key → pathFor st ino = some path →
        path ∉ st.failWrite →
        ∃ Q, diskGet (fuseWrite st nonce ino offset data).2.disk path
              = some (.ok (encrypt key nonce Q))
          ∧ (encrypt key nonce Q).length = Q.length + 28) := by
  refine ⟨encrypt_length key nonce p hn, ?_⟩
  intro st ino offset data path hkey hp hw
  refine ⟨writePlaintext (currentPlaintext st path) offset data, ?_, ?_⟩
  · simp only [fuseWrite, hp]
    rw [if_neg hw]
    subst hkey
    exact diskGet_diskSet_self _ _ _
  · have hlen := encrypt_length key nonce
      (writePlaintext (currentPlaintext st path) offset data) hn
    omega

theorem blob_length_witness :
    (encrypt (List.replicate 32 66) (List.replicate 12 7) [1, 2, 3]).length = 12 + 3 + 16 := by
  have h := (blob_length (List.replicate 32 66) (List.replicate 12 7) [1, 2, 3] (by decide)).1
  simpa using h

/-! ## C10: create truncates an existing backing file -/

/-- C10: For a known parent inode and a name whose backing file already
    exists, `create` truncates that backing file to zero bytes and
    replies success (with size 0), destroying any existing envelope. -/
theorem create_truncates (st : FSState) (parent : Nat) (name : String)
    (pp : FPath) (c : List Nat)
    (hp : pathFor st parent = some pp) (hd : pp ∈ st.dirs)
    (hc : diskGet st.disk (pp ++ [name]) = some (.ok c))
    (hnd : pp ++ [name] ∉ st.dirs) :
    (∃ a, (fuseCreate st parent name).1 = .created a ∧ a.size = 0)
    ∧ diskGet (fuseCreate st parent name).2.disk (pp ++ [name]) = some (.ok []) := by
  unfold fuseCreate
  simp only [hp]
  rw [if_pos ⟨hd, hnd⟩]
  constructor
  · refine ⟨_, rfl, ?_⟩
    have hstat : stat { st with disk := diskSet st.disk (pp ++ [name]) (.ok []) }
        (pp ++ [name]) = some (.fileMeta 0) := by
      simp [stat, hnd, diskGet_diskSet_self, FileData.bytes]
    rw [hstat]
    rfl
  · rw [register_disk]
    exact diskGet_diskSet_self _ _ _

/-- A backing tree whose file `"c"` already holds an envelope. -/
def preexistingState : FSState :=
  { key := List.replicate 32 66, inodes := [(1, [])], nextIno := 2,
    disk := [(["c"],
      FileData.ok (encrypt (List.replicate 32 66) (List.replicate 12 7) [9, 9]))],
    dirs := [[]], failWrite := [] }

theorem create_truncates_witness :
    diskGet (fuseCreate preexistingState 1 "c").2.disk ["c"] = some (.ok []) := by
  have h := (create_truncates preexistingState 1 "c" []
    (encrypt (List.replicate 32 66) (List.replicate 12 7) [9, 9])
    (by decide) (by decide) (by decide) (by decide)).2
  simpa using h
